import Mathlib

/-!
Shallow embedding of the gline-rs batch prompt encoder and inference
orchestration, translated from `src/model/input/encoded.rs`,
`src/model/inference/mod.rs` and `src/model/mod.rs`.

Machine integers: the Rust code stores `u32` token ids into `i64` tensors
(`token as i64`), id values `0`, `1`, `2` and a `usize`/`i64` word counter
bounded by the prompt length, so no overflow or sign issue can occur and all
quantities are modelled as `Nat`.  Fallible operations (`Result` in Rust)
are modelled with `Except`.
-/

namespace GlineRs

variable {ε : Type}

/-- Modelled from the spec: the `Prompt` type of `model/input/prompt.rs` is not
under `src/`; only its accessors `tokens()` and `entities_len()` are used by
`EncodedInput::from`.  Per spec §3, a prompt is an ordered sequence of token
units: first the entity-label units, then one separator unit, then the real
text words.  `entities_len` is the number of units preceding the real text
(label units plus the separator), i.e. the index of the first real word; this
is the value consistent with the unit tests embedded in
`src/model/input/encoded.rs` (e.g. `test2`, whose expected word-mask row
`[0,0,0,0,0,0,0,1,2,3,4,5,0,0,0]` forces `pos <= entities_len()` to cover the
labels, the separator, and the first word, see the theorems below). -/
structure Prompt where
  tokens : List String
  entities_len : Nat

/-- Modelled from the spec: number of real-text words of a prompt (spec §3,
`word_count` equals the number of real-word units, i.e. every unit past the
label units and the separator). -/
def Prompt.word_count (p : Prompt) : Nat :=
  p.tokens.length - p.entities_len

/-- Modelled from the spec: the `AssembledPrompt` invariant of spec §3 for a
prompt with `label_unit_count = c`: the label units occupy indices `< c`, the
separator sits at index `c` (so `entities_len = c + 1`), and at least the
separator is present. -/
def Prompt.Assembled (p : Prompt) (c : Nat) : Prop :=
  p.entities_len = c + 1 ∧ p.entities_len ≤ p.tokens.length

/-- Modelled from the spec: the `PromptInput` struct of `model/input/prompt.rs`
is not under `src/`; `EncodedInput::from` reads its fields `prompts`,
`text_lengths` (per spec §3, row i of the output `text_lengths` holds the
`word_count` of prompt i, so the assembler fills this vector with the word
counts) and the passthrough fields `texts`, `tokens`, `entities`,
`num_words`. -/
structure PromptInput where
  prompts : List Prompt
  texts : List String
  tokens : List (List String)
  entities : List String
  num_words : Nat
  text_lengths : List Nat

/-- Utility struct of `encoded.rs`: the per-prompt result of the sizing pass
(`encoding`: sub-word encodings of each unit; `text_offset`: the value
accumulated under `pos <= prompt.entities_len()`). -/
structure EncodedPrompt where
  encoding : List (List Nat)
  text_offset : Nat

/-- The inner tokenization loop of the sizing pass: encode each unit with the
tokenizer, failing fast on the first tokenizer error (`tokenizer.encode(word)?`
in `encoded.rs`, lines 46-56). -/
def encodeUnits (tok : String → Except ε (List Nat)) : List String → Except ε (List (List Nat))
  | [] => .ok []
  | w :: ws => do
    let e ← tok w
    let rest ← encodeUnits tok ws
    .ok (e :: rest)

/-- Sizing pass for one prompt (`encoded.rs` lines 38-59): the unit encodings
together with `text_offset`, the total sub-word length of every unit whose
position satisfies `pos <= prompt.entities_len()` — i.e. of the first
`entities_len + 1` units. -/
def sizePrompt (tok : String → Except ε (List Nat)) (p : Prompt) : Except ε EncodedPrompt := do
  let encs ← encodeUnits tok p.tokens
  .ok { encoding := encs
        text_offset := ((encs.take (p.entities_len + 1)).map List.length).sum }

/-- The `total_tokens` counter of the sizing pass: 2 (start and end markers)
plus the sub-word length of every unit of the prompt. -/
def totalTokens (ep : EncodedPrompt) : Nat :=
  2 + (ep.encoding.map List.length).sum

/-- Sizing pass over the whole batch, failing fast on the first tokenizer
error (outer loop of `encoded.rs` lines 38-60). -/
def sizeBatch (tok : String → Except ε (List Nat)) : List Prompt → Except ε (List EncodedPrompt)
  | [] => .ok []
  | p :: ps => do
    let ep ← sizePrompt tok p
    let rest ← sizeBatch tok ps
    .ok (ep :: rest)

/-- The running `max_tokens` of the sizing pass (`encoded.rs` line 59),
starting from 0 and taking the maximum of the `total_tokens` of each prompt. -/
def maxTokens (eps : List EncodedPrompt) : Nat :=
  eps.foldl (fun m ep => max m (totalTokens ep)) 0

/-- Mutable state of the materialization loop of `encoded.rs` (lines 70-99):
the three row buffers plus the write position `idx` and the word counter
`word_id`. -/
structure RowState where
  input_id : List Nat
  attn_mask : List Nat
  word_mask : List Nat
  idx : Nat
  word_id : Nat

/-- One iteration of the innermost token loop (`encoded.rs` lines 84-94):
write the token id and attention 1 at `idx`, write the word mask only when
`idx >= text_offset`, and advance `idx`. -/
def writeToken (T : Nat) (st : RowState) (token : Nat) : RowState :=
  { input_id := st.input_id.set st.idx token
    attn_mask := st.attn_mask.set st.idx 1
    word_mask := if T ≤ st.idx then st.word_mask.set st.idx st.word_id else st.word_mask
    idx := st.idx + 1
    word_id := st.word_id }

/-- One iteration of the per-unit loop (`encoded.rs` lines 83-99): write all
tokens of the unit, then increment `word_id` when `idx >= text_offset`. -/
def writeUnit (T : Nat) (st : RowState) (word : List Nat) : RowState :=
  let st' := word.foldl (writeToken T) st
  { st' with word_id := if T ≤ st'.idx then st'.word_id + 1 else st'.word_id }

/-- The full per-unit loop over a prompt's encodings. -/
def writeUnits (T : Nat) (st : RowState) (encoding : List (List Nat)) : RowState :=
  encoding.foldl (writeUnit T) st

/-- Row buffers after the zero-fill and the initial-token write
(`encoded.rs` lines 70-80): zero rows of width `m`, start marker id 1 and
attention 1 at position 0, `idx = 1`, `word_id = 0`. -/
def initRowState (m : Nat) : RowState :=
  { input_id := (List.replicate m 0).set 0 1
    attn_mask := (List.replicate m 0).set 0 1
    word_mask := List.replicate m 0
    idx := 1
    word_id := 0 }

/-- One materialized row (the triple pushed by `push_row`). -/
structure Row where
  input_id : List Nat
  attn_mask : List Nat
  word_mask : List Nat

/-- Materialization of one prompt (`encoded.rs` lines 68-108): initial token,
all unit tokens, then the terminal token id 2 with attention 1 at the final
`idx`. -/
def materializePrompt (m : Nat) (ep : EncodedPrompt) : Row :=
  let st := writeUnits ep.text_offset (initRowState m) ep.encoding
  { input_id := st.input_id.set st.idx 2
    attn_mask := st.attn_mask.set st.idx 1
    word_mask := st.word_mask }

/-- Output of the encoder, `EncodedInput` of `encoded.rs` (tensor rows as
lists). -/
structure EncodedInput where
  texts : List String
  tokens : List (List String)
  entities : List String
  num_words : Nat
  num_tokens : Nat
  input_ids : List (List Nat)
  attention_masks : List (List Nat)
  word_masks : List (List Nat)
  text_lengths : List (List Nat)

/-- The encoder `EncodedInput::from` of `encoded.rs`: sizing pass, then
materialization of each prompt at width `max_tokens`, then the batch × 1
`text_lengths` matrix.  (`from` is a reserved word in Lean, hence the name
`fromInput`.)  The `push_row` calls of the Rust code can only fail on a width
mismatch, which never happens because every row is built at width
`max_tokens`; see the row-width theorems below. -/
def EncodedInput.fromInput (input : PromptInput) (tok : String → Except ε (List Nat)) :
    Except ε EncodedInput := do
  let encodings ← sizeBatch tok input.prompts
  let m := maxTokens encodings
  let rows := encodings.map (materializePrompt m)
  .ok { texts := input.texts
        tokens := input.tokens
        entities := input.entities
        num_words := input.num_words
        num_tokens := m
        input_ids := rows.map Row.input_id
        attention_masks := rows.map Row.attn_mask
        word_masks := rows.map Row.word_mask
        text_lengths := input.text_lengths.map (fun n => [n]) }

/-! Helper lemmas about the sizing pass. -/

theorem encodeUnits_ok_length {tok : String → Except ε (List Nat)} :
    ∀ {us : List String} {encs : List (List Nat)},
      encodeUnits tok us = .ok encs → encs.length = us.length := by
  intro us
  induction us with
  | nil => intro encs h; simp only [encodeUnits] at h; cases h; rfl
  | cons w ws ih =>
    intro encs h
    simp only [encodeUnits, bind, Except.bind] at h
    cases he : tok w with
    | error e => rw [he] at h; cases h
    | ok enc =>
      rw [he] at h
      cases hr : encodeUnits tok ws with
      | error e => rw [hr] at h; cases h
      | ok rest =>
        rw [hr] at h
        cases h
        simp [ih hr]

theorem encodeUnits_ok_forall {tok : String → Except ε (List Nat)} :
    ∀ {us : List String} {encs : List (List Nat)},
      encodeUnits tok us = .ok encs → ∀ u ∈ us, ∃ v, tok u = .ok v := by
  intro us
  induction us with
  | nil => intro encs _ u hu; cases hu
  | cons w ws ih =>
    intro encs h u hu
    simp only [encodeUnits, bind, Except.bind] at h
    cases he : tok w with
    | error e => rw [he] at h; cases h
    | ok enc =>
      rw [he] at h
      cases hr : encodeUnits tok ws with
      | error e => rw [hr] at h; cases h
      | ok rest =>
        rcases List.mem_cons.mp hu with rfl | hu'
        · exact ⟨enc, he⟩
        · exact ih hr u hu'

theorem encodeUnits_error_exists {tok : String → Except ε (List Nat)} :
    ∀ {us : List String} {e : ε},
      encodeUnits tok us = .error e → ∃ u ∈ us, tok u = .error e := by
  intro us
  induction us with
  | nil => intro e h; simp only [encodeUnits] at h; cases h
  | cons w ws ih =>
    intro e h
    simp only [encodeUnits, bind, Except.bind] at h
    cases he : tok w with
    | error e' =>
      rw [he] at h
      cases h
      exact ⟨w, List.mem_cons_self w ws, he⟩
    | ok enc =>
      rw [he] at h
      cases hr : encodeUnits tok ws with
      | error e' =>
        rw [hr] at h
        cases h
        obtain ⟨u, hu, hu'⟩ := ih hr
        exact ⟨u, List.mem_cons_of_mem w hu, hu'⟩
      | ok rest => rw [hr] at h; cases h

theorem sizePrompt_ok {tok : String → Except ε (List Nat)} {p : Prompt} {ep : EncodedPrompt}
    (h : sizePrompt tok p = .ok ep) :
    encodeUnits tok p.tokens = .ok ep.encoding ∧
      ep.text_offset = ((ep.encoding.take (p.entities_len + 1)).map List.length).sum := by
  simp only [sizePrompt, bind, Except.bind] at h
  cases he : encodeUnits tok p.tokens with
  | error e => rw [he] at h; cases h
  | ok encs => rw [he] at h; cases h; exact ⟨rfl, rfl⟩

theorem sizePrompt_error {tok : String → Except ε (List Nat)} {p : Prompt} {e : ε}
    (h : sizePrompt tok p = .error e) : encodeUnits tok p.tokens = .error e := by
  simp only [sizePrompt, bind, Except.bind] at h
  cases he : encodeUnits tok p.tokens with
  | error e' => rw [he] at h; cases h; rfl
  | ok encs => rw [he] at h; cases h

theorem sizeBatch_ok_length {tok : String → Except ε (List Nat)} :
    ∀ {ps : List Prompt} {eps : List EncodedPrompt},
      sizeBatch tok ps = .ok eps → eps.length = ps.length := by
  intro ps
  induction ps with
  | nil => intro eps h; simp only [sizeBatch] at h; cases h; rfl
  | cons p ps ih =>
    intro eps h
    simp only [sizeBatch, bind, Except.bind] at h
    cases hp : sizePrompt tok p with
    | error e => rw [hp] at h; cases h
    | ok ep =>
      rw [hp] at h
      cases hr : sizeBatch tok ps with
      | error e => rw [hr] at h; cases h
      | ok rest => rw [hr] at h; cases h; simp [ih hr]

theorem sizeBatch_ok_get {tok : String → Except ε (List Nat)} :
    ∀ {ps : List Prompt} {eps : List EncodedPrompt},
      sizeBatch tok ps = .ok eps →
      ∀ i (hi : i < ps.length) (hi' : i < eps.length),
        sizePrompt tok (ps.get ⟨i, hi⟩) = .ok (eps.get ⟨i, hi'⟩) := by
  intro ps
  induction ps with
  | nil => intro eps h i hi; cases hi
  | cons p ps ih =>
    intro eps h i hi hi'
    simp only [sizeBatch, bind, Except.bind] at h
    cases hp : sizePrompt tok p with
    | error e => rw [hp] at h; cases h
    | ok ep =>
      rw [hp] at h
      cases hr : sizeBatch tok ps with
      | error e => rw [hr] at h; cases h
      | ok rest =>
        rw [hr] at h
        cases h
        cases i with
        | zero => exact hp
        | succ j => exact ih hr j (Nat.lt_of_succ_lt_succ hi) (Nat.lt_of_succ_lt_succ hi')

theorem sizeBatch_ok_mem {tok : String → Except ε (List Nat)} :
    ∀ {ps : List Prompt} {eps : List EncodedPrompt},
      sizeBatch tok ps = .ok eps →
      ∀ ep ∈ eps, ∃ p ∈ ps, sizePrompt tok p = .ok ep := by
  intro ps
  induction ps with
  | nil => intro eps h ep hep; simp only [sizeBatch] at h; cases h; cases hep
  | cons p ps ih =>
    intro eps h ep hep
    simp only [sizeBatch, bind, Except.bind] at h
    cases hp : sizePrompt tok p with
    | error e => rw [hp] at h; cases h
    | ok ep' =>
      rw [hp] at h
      cases hr : sizeBatch tok ps with
      | error e => rw [hr] at h; cases h
      | ok rest =>
        rw [hr] at h
        cases h
        rcases List.mem_cons.mp hep with rfl | hmem
        · exact ⟨p, List.mem_cons_self p ps, hp⟩
        · obtain ⟨q, hq, hq'⟩ := ih hr ep hmem
          exact ⟨q, List.mem_cons_of_mem p hq, hq'⟩

theorem sizeBatch_ok_mem' {tok : String → Except ε (List Nat)} :
    ∀ {ps : List Prompt} {eps : List EncodedPrompt},
      sizeBatch tok ps = .ok eps →
      ∀ p ∈ ps, ∃ ep ∈ eps, sizePrompt tok p = .ok ep := by
  intro ps
  induction ps with
  | nil => intro eps h p hp; cases hp
  | cons q ps ih =>
    intro eps h p hp
    simp only [sizeBatch, bind, Except.bind] at h
    cases hq : sizePrompt tok q with
    | error e => rw [hq] at h; cases h
    | ok ep' =>
      rw [hq] at h
      cases hr : sizeBatch tok ps with
      | error e => rw [hr] at h; cases h
      | ok rest =>
        rw [hr] at h
        cases h
        rcases List.mem_cons.mp hp with rfl | hmem
        · exact ⟨ep', List.mem_cons_self ep' rest, hq⟩
        · obtain ⟨ep, hep, hep'⟩ := ih hr p hmem
          exact ⟨ep, List.mem_cons_of_mem ep' hep, hep'⟩

theorem sizeBatch_error_exists {tok : String → Except ε (List Nat)} :
    ∀ {ps : List Prompt} {e : ε},
      sizeBatch tok ps = .error e →
      ∃ p ∈ ps, ∃ u ∈ p.tokens, tok u = .error e := by
  intro ps
  induction ps with
  | nil => intro e h; simp only [sizeBatch] at h; cases h
  | cons p ps ih =>
    intro e h
    simp only [sizeBatch, bind, Except.bind] at h
    cases hp : sizePrompt tok p with
    | error e' =>
      rw [hp] at h
      cases h
      obtain ⟨u, hu, hu'⟩ := encodeUnits_error_exists (sizePrompt_error hp)
      exact ⟨p, List.mem_cons_self p ps, u, hu, hu'⟩
    | ok ep =>
      rw [hp] at h
      cases hr : sizeBatch tok ps with
      | error e' =>
        rw [hr] at h
        cases h
        obtain ⟨q, hq, hq'⟩ := ih hr
        exact ⟨q, List.mem_cons_of_mem p hq, hq'⟩
      | ok rest => rw [hr] at h; cases h

theorem fromInput_ok {input : PromptInput} {tok : String → Except ε (List Nat)}
    {enc : EncodedInput} (h : EncodedInput.fromInput input tok = .ok enc) :
    ∃ eps, sizeBatch tok input.prompts = .ok eps ∧
      enc.num_tokens = maxTokens eps ∧
      enc.input_ids = (eps.map (materializePrompt (maxTokens eps))).map Row.input_id ∧
      enc.attention_masks = (eps.map (materializePrompt (maxTokens eps))).map Row.attn_mask ∧
      enc.word_masks = (eps.map (materializePrompt (maxTokens eps))).map Row.word_mask ∧
      enc.text_lengths = input.text_lengths.map (fun n => [n]) := by
  simp only [EncodedInput.fromInput, bind, Except.bind] at h
  cases hsb : sizeBatch tok input.prompts with
  | error e => rw [hsb] at h; cases h
  | ok eps =>
    rw [hsb] at h
    cases h
    exact ⟨eps, rfl, rfl, rfl, rfl, rfl, rfl⟩

/-! Helper lemmas about the running maximum. -/

theorem le_foldl_max (l : List Nat) : ∀ init : Nat, init ≤ l.foldl max init := by
  induction l with
  | nil => intro init; exact Nat.le_refl init
  | cons a l ih =>
    intro init
    exact Nat.le_trans (Nat.le_max_left init a) (ih (max init a))

theorem mem_le_foldl_max (l : List Nat) : ∀ (init x : Nat), x ∈ l → x ≤ l.foldl max init := by
  induction l with
  | nil => intro init x hx; cases hx
  | cons a l ih =>
    intro init x hx
    rcases List.mem_cons.mp hx with rfl | hx'
    · exact Nat.le_trans (Nat.le_max_right init x) (le_foldl_max l (max init x))
    · exact ih (max init a) x hx'

theorem foldl_max_eq_or_mem (l : List Nat) : ∀ init : Nat,
    l.foldl max init = init ∨ l.foldl max init ∈ l := by
  induction l with
  | nil => intro init; exact Or.inl rfl
  | cons a l ih =>
    intro init
    rcases ih (max init a) with h | h
    · rcases max_choice init a with hm | hm
      · exact Or.inl (by rw [List.foldl_cons, h, hm])
      · exact Or.inr (by rw [List.foldl_cons, h, hm]; exact List.mem_cons_self a l)
    · exact Or.inr (List.mem_cons_of_mem a h)

theorem maxTokens_eq_foldl (eps : List EncodedPrompt) :
    maxTokens eps = (eps.map totalTokens).foldl max 0 := by
  rw [maxTokens, List.foldl_map]

theorem totalTokens_le_maxTokens {eps : List EncodedPrompt} {ep : EncodedPrompt}
    (h : ep ∈ eps) : totalTokens ep ≤ maxTokens eps := by
  rw [maxTokens_eq_foldl]
  exact mem_le_foldl_max _ 0 _ (List.mem_map_of_mem totalTokens h)

theorem maxTokens_attained {eps : List EncodedPrompt} (h : eps ≠ []) :
    ∃ ep ∈ eps, maxTokens eps = totalTokens ep := by
  rcases foldl_max_eq_or_mem (eps.map totalTokens) 0 with h0 | hmem
  · obtain ⟨ep, hep⟩ := List.exists_mem_of_ne_nil eps h
    have hle := totalTokens_le_maxTokens hep
    rw [maxTokens_eq_foldl, h0] at hle
    exact absurd hle (by simp [totalTokens])
  · obtain ⟨ep, hep, heq⟩ := List.mem_map.mp hmem
    exact ⟨ep, hep, by rw [maxTokens_eq_foldl, ← heq]⟩

/-! Helper lemmas about the materialization pass. -/

theorem writeToken_fields (T : Nat) (st : RowState) (t : Nat) :
    (writeToken T st t).idx = st.idx + 1 ∧
    (writeToken T st t).input_id.length = st.input_id.length ∧
    (writeToken T st t).attn_mask.length = st.attn_mask.length ∧
    (writeToken T st t).word_mask.length = st.word_mask.length := by
  refine ⟨rfl, by simp [writeToken], by simp [writeToken], ?_⟩
  simp only [writeToken]
  split <;> simp

theorem foldl_writeToken_fields (T : Nat) : ∀ (w : List Nat) (st : RowState),
    (w.foldl (writeToken T) st).idx = st.idx + w.length ∧
    (w.foldl (writeToken T) st).input_id.length = st.input_id.length ∧
    (w.foldl (writeToken T) st).attn_mask.length = st.attn_mask.length ∧
    (w.foldl (writeToken T) st).word_mask.length = st.word_mask.length := by
  intro w
  induction w with
  | nil => intro st; exact ⟨rfl, rfl, rfl, rfl⟩
  | cons t ts ih =>
    intro st
    obtain ⟨i1, i2, i3, i4⟩ := ih (writeToken T st t)
    obtain ⟨j1, j2, j3, j4⟩ := writeToken_fields T st t
    refine ⟨?_, ?_, ?_, ?_⟩ <;> simp only [List.foldl_cons, i1, i2, i3, i4, j1, j2, j3, j4,
      List.length_cons]
    omega

theorem writeUnit_fields (T : Nat) (st : RowState) (w : List Nat) :
    (writeUnit T st w).idx = st.idx + w.length ∧
    (writeUnit T st w).input_id.length = st.input_id.length ∧
    (writeUnit T st w).attn_mask.length = st.attn_mask.length ∧
    (writeUnit T st w).word_mask.length = st.word_mask.length :=
  foldl_writeToken_fields T w st

theorem writeUnits_fields (T : Nat) : ∀ (enc : List (List Nat)) (st : RowState),
    (writeUnits T st enc).idx = st.idx + (enc.map List.length).sum ∧
    (writeUnits T st enc).input_id.length = st.input_id.length ∧
    (writeUnits T st enc).attn_mask.length = st.attn_mask.length ∧
    (writeUnits T st enc).word_mask.length = st.word_mask.length := by
  intro enc
  induction enc with
  | nil => intro st; exact ⟨rfl, rfl, rfl, rfl⟩
  | cons w ws ih =>
    intro st
    obtain ⟨i1, i2, i3, i4⟩ := ih (writeUnit T st w)
    obtain ⟨j1, j2, j3, j4⟩ := writeUnit_fields T st w
    have hu : writeUnits T st (w :: ws) = writeUnits T (writeUnit T st w) ws := rfl
    refine ⟨?_, ?_, ?_, ?_⟩ <;> simp only [hu, i1, i2, i3, i4, j1, j2, j3, j4,
      List.map_cons, List.sum_cons]
    omega

/-- Invariant of the materialization loop: at write position `a` the id buffer
is a materialized prefix `A` followed by the untouched zero fill, the attention
buffer is all-ones up to `a`, and the word-mask buffer keeps its width. -/
def StInv (a r : Nat) (A : List Nat) (st : RowState) : Prop :=
  st.idx = a ∧ A.length = a ∧
  st.input_id = A ++ List.replicate r 0 ∧
  st.attn_mask = List.replicate a 1 ++ List.replicate r 0 ∧
  st.word_mask.length = a + r

theorem writeToken_stInv {T t a r : Nat} {A : List Nat} {st : RowState}
    (h : StInv a (r + 1) A st) : StInv (a + 1) r (A ++ [t]) (writeToken T st t) := by
  obtain ⟨hidx, hA, hin, hat, hwm⟩ := h
  refine ⟨by simp [writeToken, hidx], by simp [hA], ?_, ?_, ?_⟩
  · show st.input_id.set st.idx t = (A ++ [t]) ++ List.replicate r 0
    rw [hin, hidx, ← hA, List.set_append_right _ _ (Nat.le_refl A.length), Nat.sub_self,
      List.replicate_succ, List.set_cons_zero]
    simp
  · show st.attn_mask.set st.idx 1 = List.replicate (a + 1) 1 ++ List.replicate r 0
    have hl : (List.replicate a (1 : Nat)).length ≤ st.idx := by simp [hidx]
    rw [hat, List.set_append_right _ _ hl, hidx, List.length_replicate, Nat.sub_self,
      List.replicate_succ, List.set_cons_zero, List.replicate_succ']
    simp
  · show (if T ≤ st.idx then st.word_mask.set st.idx st.word_id else st.word_mask).length
        = (a + 1) + r
    split <;> simp [hwm] <;> omega

theorem foldl_writeToken_stInv (T : Nat) : ∀ (w : List Nat) (a r : Nat) (A : List Nat)
    (st : RowState), StInv a r A st → w.length ≤ r →
    StInv (a + w.length) (r - w.length) (A ++ w) (w.foldl (writeToken T) st) := by
  intro w
  induction w with
  | nil => intro a r A st h _; simpa using h
  | cons t ts ih =>
    intro a r A st h hle
    cases r with
    | zero => simp at hle
    | succ r' =>
      have h1 := writeToken_stInv (T := T) (t := t) h
      have hts : ts.length ≤ r' := by simp only [List.length_cons] at hle; omega
      have h2 := ih (a + 1) r' (A ++ [t]) (writeToken T st t) h1 hts
      have e1 : a + (t :: ts).length = a + 1 + ts.length := by
        simp only [List.length_cons]; omega
      have e2 : r' + 1 - (t :: ts).length = r' - ts.length := by
        simp only [List.length_cons]; omega
      have e3 : A ++ t :: ts = (A ++ [t]) ++ ts := by simp
      rw [List.foldl_cons, e1, e2, e3]
      exact h2

theorem writeUnit_stInv (T : Nat) (w : List Nat) (a r : Nat) (A : List Nat) (st : RowState)
    (h : StInv a r A st) (hle : w.length ≤ r) :
    StInv (a + w.length) (r - w.length) (A ++ w) (writeUnit T st w) :=
  foldl_writeToken_stInv T w a r A st h hle

theorem writeUnits_stInv (T : Nat) : ∀ (enc : List (List Nat)) (a r : Nat) (A : List Nat)
    (st : RowState), StInv a r A st → (enc.map List.length).sum ≤ r →
    StInv (a + (enc.map List.length).sum) (r - (enc.map List.length).sum)
      (A ++ enc.flatten) (writeUnits T st enc) := by
  intro enc
  induction enc with
  | nil => intro a r A st h _; simpa using h
  | cons w ws ih =>
    intro a r A st h hle
    simp only [List.map_cons, List.sum_cons] at hle
    have hw : w.length ≤ r := by omega
    have h1 := writeUnit_stInv T w a r A st h hw
    have hws : (ws.map List.length).sum ≤ r - w.length := by omega
    have h2 := ih (a + w.length) (r - w.length) (A ++ w) (writeUnit T st w) h1 hws
    have hu : writeUnits T st (w :: ws) = writeUnits T (writeUnit T st w) ws := rfl
    have e1 : a + ((w :: ws).map List.length).sum
        = a + w.length + (ws.map List.length).sum := by
      simp only [List.map_cons, List.sum_cons]; omega
    have e2 : r - ((w :: ws).map List.length).sum
        = r - w.length - (ws.map List.length).sum := by
      simp only [List.map_cons, List.sum_cons]; omega
    have e3 : A ++ (w :: ws).flatten = (A ++ w) ++ ws.flatten := by
      simp [List.flatten_cons]
    rw [hu, e1, e2, e3]
    exact h2

theorem initRowState_stInv (m : Nat) (h : 1 ≤ m) :
    StInv 1 (m - 1) [1] (initRowState m) := by
  obtain ⟨k, rfl⟩ : ∃ k, m = k + 1 := ⟨m - 1, by omega⟩
  refine ⟨rfl, rfl, ?_, ?_, ?_⟩
  · simp [initRowState, List.replicate_succ, List.set_cons_zero]
  · simp [initRowState, List.replicate_succ, List.set_cons_zero]
  · simp only [initRowState, List.length_replicate]
    omega

/-- Structural form of one materialized row, for a prompt that fits in width
`m`: the id row is the start marker, the flattened sub-word ids, the end
marker, then zero padding; the attention row is exactly `2 + total` ones then
zero padding; the word-mask row has width `m`. -/
theorem materializePrompt_spec (m : Nat) (ep : EncodedPrompt) (h : totalTokens ep ≤ m) :
    (materializePrompt m ep).input_id
        = 1 :: ep.encoding.flatten
            ++ 2 :: List.replicate (m - 2 - (ep.encoding.map List.length).sum) 0 ∧
    (materializePrompt m ep).attn_mask
        = List.replicate (2 + (ep.encoding.map List.length).sum) 1
            ++ List.replicate (m - 2 - (ep.encoding.map List.length).sum) 0 ∧
    (materializePrompt m ep).word_mask.length = m := by
  have htot : 2 + (ep.encoding.map List.length).sum ≤ m := by
    simpa [totalTokens] using h
  have h1 : 1 ≤ m := by omega
  have hsum : (ep.encoding.map List.length).sum ≤ m - 1 := by omega
  have hst := writeUnits_stInv ep.text_offset ep.encoding 1 (m - 1) [1] (initRowState m)
    (initRowState_stInv m h1) hsum
  obtain ⟨hidx, hA, hin, hat, hwm⟩ := hst
  obtain ⟨k, hk⟩ : ∃ k, m - 1 - (ep.encoding.map List.length).sum = k + 1 :=
    ⟨m - 2 - (ep.encoding.map List.length).sum, by omega⟩
  have hk' : k = m - 2 - (ep.encoding.map List.length).sum := by omega
  refine ⟨?_, ?_, ?_⟩
  · show (writeUnits ep.text_offset (initRowState m) ep.encoding).input_id.set
        (writeUnits ep.text_offset (initRowState m) ep.encoding).idx 2
      = 1 :: ep.encoding.flatten
          ++ 2 :: List.replicate (m - 2 - (ep.encoding.map List.length).sum) 0
    rw [hin, hidx, hk, List.set_append_right _ _ (Nat.le_of_eq hA), hA, Nat.sub_self,
      List.replicate_succ, List.set_cons_zero, hk']
    simp
  · show (writeUnits ep.text_offset (initRowState m) ep.encoding).attn_mask.set
        (writeUnits ep.text_offset (initRowState m) ep.encoding).idx 1
      = List.replicate (2 + (ep.encoding.map List.length).sum) 1
          ++ List.replicate (m - 2 - (ep.encoding.map List.length).sum) 0
    have hrl : (List.replicate (1 + (ep.encoding.map List.length).sum) (1 : Nat)).length
        ≤ 1 + (ep.encoding.map List.length).sum := by simp
    rw [hat, hidx, hk, List.set_append_right _ _ hrl, List.length_replicate,
      Nat.sub_self, List.replicate_succ, List.set_cons_zero, hk']
    have e4 : 2 + (ep.encoding.map List.length).sum
        = (1 + (ep.encoding.map List.length).sum) + 1 := by omega
    rw [e4, List.replicate_succ']
    simp
  · show (writeUnits ep.text_offset (initRowState m) ep.encoding).word_mask.length = m
    rw [hwm]
    omega

/-! Embedding of the inference orchestration (`src/model/inference/mod.rs` and
`src/model/mod.rs`).  The ONNX session is opaque: a `Model` is its `run`
capability (tensor-in/tensor-out, fallible), and a `Pipeline` is the pair of
parametrized pre- and post-processor stages (`Composable::apply` is modelled
as plain function application). -/

structure Model (ε X Y : Type) where
  run : X → Except ε Y

structure Pipeline (ε Par I X M Y O : Type) where
  pre_processor : Par → I → Except ε (X × M)
  post_processor : Par → Y × M → Except ε O

/-- The orchestrator `Model::inference` (`inference/mod.rs` lines 32-41):
pre-process, then run the engine, then post-process, each step short-circuiting
through `?`. -/
def Model.inference {ε Par I X M Y O : Type} (model : Model ε X Y) (input : I)
    (pipeline : Pipeline ε Par I X M Y O) (params : Par) : Except ε O := do
  let (x, meta) ← pipeline.pre_processor params input
  let output ← model.run x
  pipeline.post_processor params (output, meta)

/-- The facade `GLiNER` of `model/mod.rs`: a model, a pipeline and parameters
bound together. -/
structure GLiNER (ε Par I X M Y O : Type) where
  params : Par
  model : Model ε X Y
  pipeline : Pipeline ε Par I X M Y O

/-- The facade entry point `GLiNER::inference` (`model/mod.rs` lines 26-28). -/
def GLiNER.inference {ε Par I X M Y O : Type} (g : GLiNER ε Par I X M Y O) (input : I) :
    Except ε O :=
  g.model.inference input g.pipeline g.params

/-- Reference behavior demanded by the spec for the facade: manually run the
pipeline's pre-processor, the model's run, and the pipeline's post-processor,
in order, with the same pipeline and parameters. -/
def manualThreeStages {ε Par I X M Y O : Type} (g : GLiNER ε Par I X M Y O) (input : I) :
    Except ε O := do
  let (x, meta) ← g.pipeline.pre_processor g.params input
  let y ← g.model.run x
  g.pipeline.post_processor g.params (y, meta)

/-! Spec-side quantities used to state the claims about `text_offset`. -/

/-- The entity-span formula exactly as the spec words it: the sum of the
sub-word encoding lengths of every unit whose index is at most
`label_unit_count` (labels plus the separator only). -/
def entitySpanClaim (lens : List Nat) (label_unit_count : Nat) : Nat :=
  (lens.take (label_unit_count + 1)).sum

/-- Row index at which the real-text region begins in a materialized row: one
start marker plus the sub-word tokens of the `el` units that precede the real
text. -/
def textRegionStart (lens : List Nat) (el : Nat) : Nat :=
  1 + (lens.take el).sum

/-! Concrete inputs used by the counterexamples and witnesses. -/

/-- Toy tokenizer exhibiting a first real-text word ("Smithsonian") that
encodes to two sub-word tokens. -/
def bugTok : String → Except String (List Nat) := fun w =>
  if w = "<<ENT>>" then .ok [7]
  else if w = "person" then .ok [8]
  else if w = "<<SEP>>" then .ok [9]
  else if w = "Smithsonian" then .ok [10, 11]
  else if w = "rocks" then .ok [12]
  else .error "unknown word"

/-- Prompt "<<ENT>> person <<SEP>> Smithsonian rocks": two label-region units
before the separator (`label_unit_count = 2`), separator at index 2,
`entities_len = 3`, two real words. -/
def bugPrompt : Prompt :=
  { tokens := ["<<ENT>>", "person", "<<SEP>>", "Smithsonian", "rocks"], entities_len := 3 }

def bugInput : PromptInput :=
  { prompts := [bugPrompt], texts := ["Smithsonian rocks"],
    tokens := [["Smithsonian", "rocks"]], entities := ["person"], num_words := 2,
    text_lengths := [2] }

/-- Toy tokenizer for the single-token-per-unit examples (the shape of the
repository's own unit test `test_multiword_entity_label`). -/
def okTok : String → Except String (List Nat) := fun w =>
  if w = "<<ENT>>" then .ok [128002]
  else if w = "multi label" then .ok [1421, 1470]
  else if w = "<<SEP>>" then .ok [128003]
  else if w = "this" then .ok [273]
  else if w = "is" then .ok [334]
  else if w = "a" then .ok [264]
  else if w = "test" then .ok [1168]
  else .error "unknown word"

/-- Prompt "<<ENT>> multi label <<SEP>> this is a test": `label_unit_count = 2`
(units "<<ENT>>" and "multi label"), separator at index 2, four real words. -/
def okPrompt : Prompt :=
  { tokens := ["<<ENT>>", "multi label", "<<SEP>>", "this", "is", "a", "test"],
    entities_len := 3 }

def okInput : PromptInput :=
  { prompts := [okPrompt], texts := ["this is a test"],
    tokens := [["this", "is", "a", "test"]], entities := ["multi label"], num_words := 4,
    text_lengths := [4] }

/-- Default placeholder used to extract the value out of a known-successful
encoder run. -/
def emptyEncoded : EncodedInput :=
  { texts := [], tokens := [], entities := [], num_words := 0, num_tokens := 0,
    input_ids := [], attention_masks := [], word_masks := [], text_lengths := [] }

/-- The concrete encoder output on `okInput`. -/
def okEncoded : EncodedInput :=
  (EncodedInput.fromInput okInput okTok).toOption.getD emptyEncoded

/-- The concrete sizing-pass output on `okInput`'s single prompt. -/
def okSized : EncodedPrompt :=
  (sizePrompt okTok okPrompt).toOption.getD { encoding := [], text_offset := 0 }

/-- An input batch containing a unit the tokenizer cannot encode. -/
def failInput : PromptInput :=
  { prompts := [{ tokens := ["<<ENT>>", "gloubiboulga", "<<SEP>>", "this"], entities_len := 3 }],
    texts := ["this"], tokens := [["this"]], entities := ["gloubiboulga"], num_words := 1,
    text_lengths := [1] }

/-- An empty prompt batch. -/
def emptyInput : PromptInput :=
  { prompts := [], texts := [], tokens := [], entities := ["person"], num_words := 0,
    text_lengths := [] }

theorem materializePrompt_lengths (m : Nat) (ep : EncodedPrompt) :
    (materializePrompt m ep).input_id.length = m ∧
    (materializePrompt m ep).attn_mask.length = m ∧
    (materializePrompt m ep).word_mask.length = m := by
  obtain ⟨_, h2, h3, h4⟩ := writeUnits_fields ep.text_offset ep.encoding (initRowState m)
  refine ⟨?_, ?_, ?_⟩
  · simp only [materializePrompt, List.length_set]
    rw [h2]
    simp [initRowState]
  · simp only [materializePrompt, List.length_set]
    rw [h3]
    simp [initRowState]
  · simp only [materializePrompt]
    rw [h4]
    simp [initRowState]

/-- C5: for an empty prompt batch (zero prompts), `EncodedInput::from` succeeds
and yields zero rows in `input_ids`, `attention_masks` and `word_masks`, and
`num_tokens = 0`. -/
theorem c5_empty_batch {ε : Type} (input : PromptInput) (tok : String → Except ε (List Nat))
    (h : input.prompts = []) :
    ∃ enc, EncodedInput.fromInput input tok = .ok enc ∧
      enc.input_ids = [] ∧ enc.attention_masks = [] ∧ enc.word_masks = [] ∧
      enc.num_tokens = 0 := by
  refine ⟨{ texts := input.texts, tokens := input.tokens, entities := input.entities,
            num_words := input.num_words, num_tokens := 0, input_ids := [],
            attention_masks := [], word_masks := [],
            text_lengths := input.text_lengths.map (fun n => [n]) },
          ?_, rfl, rfl, rfl, rfl⟩
  simp [EncodedInput.fromInput, h, sizeBatch, maxTokens, bind, Except.bind]

theorem c5_empty_batch_witness :
    emptyInput.prompts = [] ∧
    ∃ enc, EncodedInput.fromInput emptyInput
        (fun _ => (.error "e" : Except String (List Nat))) = .ok enc ∧
      enc.input_ids = [] ∧ enc.attention_masks = [] ∧ enc.word_masks = [] ∧
      enc.num_tokens = 0 :=
  ⟨rfl, c5_empty_batch emptyInput (fun _ => .error "e") rfl⟩

/-- C6: if the tokenizer fails on any unit of any prompt of the batch then
`EncodedInput::from` returns an error — the whole batch fails with no partial
result — and the error returned is a tokenizer error of one of the units. -/
theorem c6_tokenizer_fail_fast {ε : Type} (input : PromptInput)
    (tok : String → Except ε (List Nat))
    (h : ∃ p ∈ input.prompts, ∃ u ∈ p.tokens, ∃ e, tok u = .error e) :
    ∃ e, EncodedInput.fromInput input tok = .error e ∧
      ∃ p ∈ input.prompts, ∃ u ∈ p.tokens, tok u = .error e := by
  cases hsb : sizeBatch tok input.prompts with
  | ok eps =>
    exfalso
    obtain ⟨p, hp, u, hu, e, he⟩ := h
    obtain ⟨ep, _, hok⟩ := sizeBatch_ok_mem' hsb p hp
    obtain ⟨v, hv⟩ := encodeUnits_ok_forall (sizePrompt_ok hok).1 u hu
    rw [he] at hv
    cases hv
  | error e =>
    obtain ⟨p, hp, u, hu, he⟩ := sizeBatch_error_exists hsb
    exact ⟨e, by simp [EncodedInput.fromInput, hsb, bind, Except.bind], p, hp, u, hu, he⟩

theorem c6_tokenizer_fail_fast_witness :
    (∃ p ∈ failInput.prompts, ∃ u ∈ p.tokens, ∃ e, okTok u = .error e) ∧
    ∃ e, EncodedInput.fromInput failInput okTok = .error e ∧
      ∃ p ∈ failInput.prompts, ∃ u ∈ p.tokens, okTok u = .error e := by
  have h : ∃ p ∈ failInput.prompts, ∃ u ∈ p.tokens, ∃ e, okTok u = .error e := by
    refine ⟨_, List.mem_cons_self _ _, "gloubiboulga", by simp [failInput],
      "unknown word", by simp [okTok]⟩
  exact ⟨h, c6_tokenizer_fail_fast failInput okTok h⟩

/-- C7: provided the assembler fills `text_lengths` with the word count of each
prompt (its contract per spec §3, modelled here as a hypothesis since the
assembler is not under `src/`), the `text_lengths` output of
`EncodedInput::from` is a batch × 1 matrix whose row i holds the word count of
prompt i. -/
theorem c7_text_lengths_passthrough {ε : Type} (input : PromptInput)
    (tok : String → Except ε (List Nat)) (enc : EncodedInput)
    (hok : EncodedInput.fromInput input tok = .ok enc)
    (hassembler : input.text_lengths = input.prompts.map Prompt.word_count) :
    enc.text_lengths = input.prompts.map (fun p => [p.word_count]) ∧
    ∀ row ∈ enc.text_lengths, row.length = 1 := by
  obtain ⟨eps, _, _, _, _, _, htl⟩ := fromInput_ok hok
  constructor
  · rw [htl, hassembler, List.map_map]
    rfl
  · intro row hrow
    rw [htl] at hrow
    obtain ⟨n, _, rfl⟩ := List.mem_map.mp hrow
    rfl

theorem c7_text_lengths_passthrough_witness :
    EncodedInput.fromInput okInput okTok = .ok okEncoded ∧
    okInput.text_lengths = okInput.prompts.map Prompt.word_count ∧
    (okEncoded.text_lengths = okInput.prompts.map (fun p => [p.word_count]) ∧
      ∀ row ∈ okEncoded.text_lengths, row.length = 1) :=
  ⟨rfl, rfl, c7_text_lengths_passthrough okInput okTok okEncoded rfl rfl⟩

/-- C8: `Model::inference` runs pre-process, inference, post-process in that
order and short-circuits at the first failing stage: a pre-processing error is
returned unchanged whatever the engine and post-processor are (they are never
run), an engine error is returned unchanged whatever the post-processor is
(it is never called), and on success the result is exactly the post-processor
applied to the engine output and the pre-processing metadata. -/
theorem c8_inference_short_circuit {ε Par I X M Y O : Type}
    (pre : Par → I → Except ε (X × M)) (run : X → Except ε Y)
    (post : Par → Y × M → Except ε O) (params : Par) (input : I) :
    (∀ e, pre params input = .error e →
      ∀ (run' : X → Except ε Y) (post' : Par → Y × M → Except ε O),
        Model.inference ⟨run'⟩ input ⟨pre, post'⟩ params = .error e) ∧
    (∀ x meta e, pre params input = .ok (x, meta) → run x = .error e →
      ∀ (post' : Par → Y × M → Except ε O),
        Model.inference ⟨run⟩ input ⟨pre, post'⟩ params = .error e) ∧
    (∀ x meta y, pre params input = .ok (x, meta) → run x = .ok y →
        Model.inference ⟨run⟩ input ⟨pre, post⟩ params = post params (y, meta)) := by
  refine ⟨?_, ?_, ?_⟩
  · intro e he run' post'
    simp [Model.inference, he, bind, Except.bind]
  · intro x meta e hpre hrun post'
    simp [Model.inference, hpre, hrun, bind, Except.bind]
  · intro x meta y hpre hrun
    simp [Model.inference, hpre, hrun, bind, Except.bind]

theorem c8_inference_short_circuit_witness :
    ((fun (_ : Nat) (_ : Nat) => (Except.error 5 : Except Nat (Nat × Nat))) 0 1
      = .error 5) ∧
    Model.inference (⟨fun x => .ok x⟩ : Model Nat Nat Nat) 1
      (⟨fun _ _ => .error 5, fun _ ym => .ok ym.1⟩ : Pipeline Nat Nat Nat Nat Nat Nat Nat)
      0 = .error 5 :=
  ⟨rfl, (c8_inference_short_circuit (fun _ _ => .error 5) (fun x => .ok x)
    (fun _ ym => .ok ym.1) 0 1).1 5 rfl (fun x => .ok x) (fun _ ym => .ok ym.1)⟩

/-- C9: the facade `GLiNER::inference` is a pure forwarding wrapper: on every
input it produces exactly the result of `Model::inference`, which is exactly
the result of manually running the pipeline's pre-processor, the model's run
and the pipeline's post-processor in order with the same pipeline and
parameters. -/
theorem c9_facade_forwarding {ε Par I X M Y O : Type} (g : GLiNER ε Par I X M Y O)
    (input : I) :
    g.inference input = g.model.inference input g.pipeline g.params ∧
    g.inference input = manualThreeStages g input :=
  ⟨rfl, rfl⟩

/-- C1: evaluation of the encoder at a failing input.  On the prompt
"<<ENT>> person <<SEP>> Smithsonian rocks", where the first real-text word
"Smithsonian" encodes to the two sub-word tokens 10 and 11 (cells 4 and 5 of
the row), the word-mask row is `[0,0,0,0,0,0,1,0]`: both sub-word tokens of
word 1 receive mask 0 and the single token of word 2 receives mask 1, so no
cell holds the value 1 for word 1, the maximum of the row is 1 instead of
`word_count = 2`, and only one distinct positive value appears instead of two
 — contradicting the claimed word-mask semantics (and the intent documented in
the code's own comments and unit tests). -/
theorem c1_word_mask_code_bug :
    (EncodedInput.fromInput bugInput bugTok).toOption.map EncodedInput.word_masks
      = some [[0, 0, 0, 0, 0, 0, 1, 0]] ∧
    (EncodedInput.fromInput bugInput bugTok).toOption.map EncodedInput.input_ids
      = some [[1, 7, 8, 9, 10, 11, 12, 2]] ∧
    bugInput.prompts.map Prompt.word_count = [2] ∧
    (EncodedInput.fromInput bugInput bugTok).toOption.map
        (fun enc => (enc.word_masks.getD 0 []).foldr max 0) = some 1 :=
  ⟨rfl, rfl, rfl, rfl⟩

/-- C2 (counterexample): on the prompt "<<ENT>> person <<SEP>> Smithsonian
rocks" (`label_unit_count = 2`, unit sub-word lengths `[1,1,1,2,1]`), the
sizing pass computes `text_offset = 5`, while the spec's formula — the sum of
the encoding lengths of every unit with index `≤ label_unit_count` — gives 3,
and the offset at which the real-text region begins in the materialized row is
4; the claim fails on both counts. -/
theorem c2_counterexample :
    encodeUnits bugTok bugPrompt.tokens = .ok [[7], [8], [9], [10, 11], [12]] ∧
    (sizePrompt bugTok bugPrompt).toOption.map EncodedPrompt.text_offset = some 5 ∧
    entitySpanClaim (([[7], [8], [9], [10, 11], [12]] : List (List Nat)).map List.length) 2
      = 3 ∧
    textRegionStart (([[7], [8], [9], [10, 11], [12]] : List (List Nat)).map List.length) 3
      = 4 ∧
    (5 : Nat) ≠ 3 ∧ (5 : Nat) ≠ 4 :=
  ⟨rfl, rfl, rfl, rfl, by decide, by decide⟩

/-- C2 (amended): for an assembled prompt with `label_unit_count = c`, the
sizing pass computes `text_offset` as the sum of the sub-word encoding lengths
of every unit whose index is `≤ c + 1` — the label units, the separator at
index `c`, and also the first real-text word at index `c + 1`; when the first
real-text word encodes to exactly one sub-word token, this value equals the
offset at which the real-text region begins in the final materialized row. -/
theorem c2_text_offset_amended {ε : Type} (tok : String → Except ε (List Nat)) (p : Prompt)
    (c : Nat) (hasm : p.Assembled c) (hword : c + 1 < p.tokens.length)
    (encs : List (List Nat)) (henc : encodeUnits tok p.tokens = .ok encs)
    (ep : EncodedPrompt) (hsz : sizePrompt tok p = .ok ep) :
    ep.text_offset = ((encs.map List.length).take (c + 2)).sum ∧
    ((encs.map List.length).getD (c + 1) 0 = 1 →
      ep.text_offset = textRegionStart (encs.map List.length) (c + 1)) := by
  obtain ⟨hel, hle⟩ := hasm
  obtain ⟨henc', hoff⟩ := sizePrompt_ok hsz
  rw [henc] at henc'
  injection henc' with heq
  rw [← heq] at hoff
  have h1 : ep.text_offset = ((encs.map List.length).take (c + 2)).sum := by
    rw [hoff, hel, List.map_take]
  refine ⟨h1, ?_⟩
  intro hone
  have hlen : c + 1 < (encs.map List.length).length := by
    rw [List.length_map, encodeUnits_ok_length henc]
    exact hword
  have hsome : (encs.map List.length)[c + 1]? = some ((encs.map List.length)[c + 1]) :=
    List.getElem?_eq_getElem hlen
  have hv : (encs.map List.length)[c + 1] = 1 := by
    rw [List.getD_eq_getElem?_getD, hsome] at hone
    simpa using hone
  rw [h1, List.take_succ, List.sum_append, hsome]
  simp only [Option.toList_some, List.sum_cons, List.sum_nil, hv, textRegionStart]
  omega

theorem c2_text_offset_amended_witness :
    okPrompt.Assembled 2 ∧ 2 + 1 < okPrompt.tokens.length ∧
    encodeUnits okTok okPrompt.tokens
      = .ok [[128002], [1421, 1470], [128003], [273], [334], [264], [1168]] ∧
    sizePrompt okTok okPrompt = .ok okSized ∧
    (okSized.text_offset
        = ((([[128002], [1421, 1470], [128003], [273], [334], [264], [1168]] :
            List (List Nat)).map List.length).take (2 + 2)).sum ∧
      ((([[128002], [1421, 1470], [128003], [273], [334], [264], [1168]] :
            List (List Nat)).map List.length).getD (2 + 1) 0 = 1 →
        okSized.text_offset
          = textRegionStart (([[128002], [1421, 1470], [128003], [273], [334], [264],
              [1168]] : List (List Nat)).map List.length) (2 + 1))) :=
  ⟨⟨rfl, by decide⟩, by decide, rfl, rfl,
    c2_text_offset_amended okTok okPrompt 2 ⟨rfl, by decide⟩ (by decide) _ rfl okSized rfl⟩

/-- C3: for a non-empty batch on which tokenization succeeds, every row of
`input_ids`, `attention_masks` and `word_masks` has length `num_tokens`, and
`num_tokens` is the maximum over the batch's prompts of `2 +` the sum of the
sub-word encoding lengths of all units of that prompt (an upper bound that is
attained by some prompt). -/
theorem c3_token_width {ε : Type} (input : PromptInput) (tok : String → Except ε (List Nat))
    (enc : EncodedInput) (hok : EncodedInput.fromInput input tok = .ok enc)
    (hne : input.prompts ≠ []) :
    (∀ row ∈ enc.input_ids, row.length = enc.num_tokens) ∧
    (∀ row ∈ enc.attention_masks, row.length = enc.num_tokens) ∧
    (∀ row ∈ enc.word_masks, row.length = enc.num_tokens) ∧
    (∀ p ∈ input.prompts, ∀ encs, encodeUnits tok p.tokens = .ok encs →
      2 + (encs.map List.length).sum ≤ enc.num_tokens) ∧
    (∃ p ∈ input.prompts, ∃ encs, encodeUnits tok p.tokens = .ok encs ∧
      enc.num_tokens = 2 + (encs.map List.length).sum) := by
  obtain ⟨eps, hsb, hnt, hids, hattn, hwms, _⟩ := fromInput_ok hok
  refine ⟨?_, ?_, ?_, ?_, ?_⟩
  · intro row hrow
    rw [hids] at hrow
    obtain ⟨r, hr, rfl⟩ := List.mem_map.mp hrow
    obtain ⟨ep, _, rfl⟩ := List.mem_map.mp hr
    rw [hnt]
    exact (materializePrompt_lengths (maxTokens eps) ep).1
  · intro row hrow
    rw [hattn] at hrow
    obtain ⟨r, hr, rfl⟩ := List.mem_map.mp hrow
    obtain ⟨ep, _, rfl⟩ := List.mem_map.mp hr
    rw [hnt]
    exact (materializePrompt_lengths (maxTokens eps) ep).2.1
  · intro row hrow
    rw [hwms] at hrow
    obtain ⟨r, hr, rfl⟩ := List.mem_map.mp hrow
    obtain ⟨ep, _, rfl⟩ := List.mem_map.mp hr
    rw [hnt]
    exact (materializePrompt_lengths (maxTokens eps) ep).2.2
  · intro p hp encs hencs
    obtain ⟨ep, hep, hszp⟩ := sizeBatch_ok_mem' hsb p hp
    have h1 := (sizePrompt_ok hszp).1
    rw [hencs] at h1
    injection h1 with heq
    subst heq
    rw [hnt]
    have := totalTokens_le_maxTokens hep
    simpa [totalTokens] using this
  · have hne' : eps ≠ [] := by
      intro h0
      rw [h0] at hsb
      have := sizeBatch_ok_length hsb
      simp only [List.length_nil] at this
      exact hne (List.eq_nil_of_length_eq_zero this.symm)
    obtain ⟨ep, hep, hmax⟩ := maxTokens_attained hne'
    obtain ⟨p, hp, hszp⟩ := sizeBatch_ok_mem hsb ep hep
    refine ⟨p, hp, ep.encoding, (sizePrompt_ok hszp).1, ?_⟩
    rw [hnt, hmax]
    rfl

theorem c3_token_width_witness :
    EncodedInput.fromInput okInput okTok = .ok okEncoded ∧ okInput.prompts ≠ [] ∧
    ((∀ row ∈ okEncoded.input_ids, row.length = okEncoded.num_tokens) ∧
      (∀ row ∈ okEncoded.attention_masks, row.length = okEncoded.num_tokens) ∧
      (∀ row ∈ okEncoded.word_masks, row.length = okEncoded.num_tokens) ∧
      (∀ p ∈ okInput.prompts, ∀ encs, encodeUnits okTok p.tokens = .ok encs →
        2 + (encs.map List.length).sum ≤ okEncoded.num_tokens) ∧
      (∃ p ∈ okInput.prompts, ∃ encs, encodeUnits okTok p.tokens = .ok encs ∧
        okEncoded.num_tokens = 2 + (encs.map List.length).sum)) :=
  ⟨rfl, by simp [okInput], c3_token_width okInput okTok okEncoded rfl (by simp [okInput])⟩

/-- C4: for every prompt of a successfully encoded batch, the corresponding
attention row contains only values 0 and 1, the number of 1-cells is exactly
`2 +` the total sub-word token count of that prompt, and the number of 0-cells
is `num_tokens` minus that value. -/
theorem c4_attention_accounting {ε : Type} (input : PromptInput)
    (tok : String → Except ε (List Nat)) (enc : EncodedInput)
    (hok : EncodedInput.fromInput input tok = .ok enc)
    (i : Nat) (hi : i < input.prompts.length) (encs : List (List Nat))
    (henc : encodeUnits tok (input.prompts.get ⟨i, hi⟩).tokens = .ok encs) :
    ∃ row, enc.attention_masks[i]? = some row ∧
      row.count 1 = 2 + (encs.map List.length).sum ∧
      row.count 0 = enc.num_tokens - (2 + (encs.map List.length).sum) ∧
      ∀ v ∈ row, v = 0 ∨ v = 1 := by
  obtain ⟨eps, hsb, hnt, _, hattn, _, _⟩ := fromInput_ok hok
  have hlen : eps.length = input.prompts.length := sizeBatch_ok_length hsb
  have hi' : i < eps.length := by omega
  have hszp := sizeBatch_ok_get hsb i hi hi'
  obtain ⟨hencs, _⟩ := sizePrompt_ok hszp
  rw [henc] at hencs
  injection hencs with heq
  subst heq
  have hmem : eps.get ⟨i, hi'⟩ ∈ eps := List.get_mem eps i hi'
  have htot : totalTokens (eps.get ⟨i, hi'⟩) ≤ maxTokens eps := totalTokens_le_maxTokens hmem
  obtain ⟨_, hat, _⟩ := materializePrompt_spec (maxTokens eps) (eps.get ⟨i, hi'⟩) htot
  have hS : 2 + ((eps.get ⟨i, hi'⟩).encoding.map List.length).sum ≤ maxTokens eps := by
    simpa [totalTokens] using htot
  have hc1 : ∀ n k : Nat, (List.replicate n 1 ++ List.replicate k 0).count 1 = n := by
    intro n k
    simp [List.count_append, List.count_replicate]
  have hc0 : ∀ n k : Nat, (List.replicate n 1 ++ List.replicate k 0).count 0 = k := by
    intro n k
    simp [List.count_append, List.count_replicate]
  refine ⟨(materializePrompt (maxTokens eps) (eps.get ⟨i, hi'⟩)).attn_mask, ?_, ?_, ?_, ?_⟩
  · rw [hattn]
    simp only [List.getElem?_map]
    rw [List.getElem?_eq_getElem hi']
    rfl
  · rw [hat, hc1]
  · rw [hat, hnt, hc0]
    omega
  · intro v hv
    rw [hat] at hv
    rcases List.mem_append.mp hv with h | h
    · exact Or.inr (List.eq_of_mem_replicate h)
    · exact Or.inl (List.eq_of_mem_replicate h)

theorem c4_attention_accounting_witness :
    EncodedInput.fromInput okInput okTok = .ok okEncoded ∧ 0 < okInput.prompts.length ∧
    encodeUnits okTok (okInput.prompts.get ⟨0, by simp [okInput]⟩).tokens
      = .ok [[128002], [1421, 1470], [128003], [273], [334], [264], [1168]] ∧
    (∃ row, okEncoded.attention_masks[0]? = some row ∧
      row.count 1
        = 2 + (([[128002], [1421, 1470], [128003], [273], [334], [264], [1168]] :
            List (List Nat)).map List.length).sum ∧
      row.count 0
        = okEncoded.num_tokens
            - (2 + (([[128002], [1421, 1470], [128003], [273], [334], [264], [1168]] :
                List (List Nat)).map List.length).sum) ∧
      ∀ v ∈ row, v = 0 ∨ v = 1) :=
  ⟨rfl, by simp [okInput], rfl,
    c4_attention_accounting okInput okTok okEncoded rfl 0 (by simp [okInput]) _ rfl⟩

/-- C10: for every prompt of a successfully sized batch, every write position
of the materialization pass is in bounds at width `max_tokens`: position 0
(start marker) is in bounds, the write position is monotone along the unit
sequence, the final (end-marker) write position is strictly below
`max_tokens`, and each of the three produced rows has length exactly
`max_tokens` — so `push_row` always receives a row of the matrix width. -/
theorem c10_write_bounds {ε : Type} (input : PromptInput)
    (tok : String → Except ε (List Nat)) (eps : List EncodedPrompt)
    (_hsb : sizeBatch tok input.prompts = .ok eps) (ep : EncodedPrompt) (hmem : ep ∈ eps) :
    0 < maxTokens eps ∧
    (∀ pfx, pfx <+: ep.encoding →
      (writeUnits ep.text_offset (initRowState (maxTokens eps)) pfx).idx
        ≤ (writeUnits ep.text_offset (initRowState (maxTokens eps)) ep.encoding).idx) ∧
    (writeUnits ep.text_offset (initRowState (maxTokens eps)) ep.encoding).idx
      < maxTokens eps ∧
    (materializePrompt (maxTokens eps) ep).input_id.length = maxTokens eps ∧
    (materializePrompt (maxTokens eps) ep).attn_mask.length = maxTokens eps ∧
    (materializePrompt (maxTokens eps) ep).word_mask.length = maxTokens eps := by
  have htot := totalTokens_le_maxTokens hmem
  have hS : 2 + (ep.encoding.map List.length).sum ≤ maxTokens eps := by
    simpa [totalTokens] using htot
  obtain ⟨l1, l2, l3⟩ := materializePrompt_lengths (maxTokens eps) ep
  have hidx : ∀ enc' : List (List Nat),
      (writeUnits ep.text_offset (initRowState (maxTokens eps)) enc').idx
        = 1 + (enc'.map List.length).sum := by
    intro enc'
    have h := (writeUnits_fields ep.text_offset enc' (initRowState (maxTokens eps))).1
    rw [h]
    simp [initRowState]
  refine ⟨by omega, ?_, ?_, l1, l2, l3⟩
  · intro pfx hpfx
    obtain ⟨sfx, hsfx⟩ := hpfx
    rw [hidx, hidx, ← hsfx]
    simp only [List.map_append, List.sum_append]
    omega
  · rw [hidx]
    omega

theorem c10_write_bounds_witness :
    sizeBatch okTok okInput.prompts = .ok [okSized] ∧ okSized ∈ [okSized] ∧
    (0 < maxTokens [okSized] ∧
      (∀ pfx, pfx <+: okSized.encoding →
        (writeUnits okSized.text_offset (initRowState (maxTokens [okSized])) pfx).idx
          ≤ (writeUnits okSized.text_offset (initRowState (maxTokens [okSized]))
              okSized.encoding).idx) ∧
      (writeUnits okSized.text_offset (initRowState (maxTokens [okSized]))
          okSized.encoding).idx < maxTokens [okSized] ∧
      (materializePrompt (maxTokens [okSized]) okSized).input_id.length
        = maxTokens [okSized] ∧
      (materializePrompt (maxTokens [okSized]) okSized).attn_mask.length
        = maxTokens [okSized] ∧
      (materializePrompt (maxTokens [okSized]) okSized).word_mask.length
        = maxTokens [okSized]) :=
  ⟨rfl, List.mem_singleton_self okSized,
    c10_write_bounds okInput okTok [okSized] rfl okSized (List.mem_singleton_self okSized)⟩

end GlineRs
